import Mathlib

/-!
Verification of the log-highlighter tool (src/log_highlighter.rs).

The embedding models a Rust string as a `List Char` of Unicode scalar
values.  All searching and slicing in the source operates on UTF-8 byte
offsets (`str::find` returns byte indices, `&line[a..b]` slices bytes and
panics off a character boundary), so the embedding works with explicit
UTF-8 byte sequences: `strBytes` encodes a string, `bytesFind` is
byte-level substring search, and `takeBytes`/`dropBytes`/`sliceBytes` are
byte-offset slicing that return `none` exactly when Rust slicing would
panic (offset out of range or not on a character boundary).
-/

namespace LogHighlighter

/-- A Rust string value, as its list of Unicode scalar values. -/
abbrev Str := List Char

/-- Shorthand turning a Lean string literal into the model type. -/
def S (s : String) : Str := s.data

/-- UTF-8 encoding of one character (the standard 1-4 byte encoding used
by Rust strings). -/
def charBytes (c : Char) : List Nat :=
  let n := c.toNat
  if n < 0x80 then [n]
  else if n < 0x800 then [0xC0 + n / 64, 0x80 + n % 64]
  else if n < 0x10000 then
    [0xE0 + n / 4096, 0x80 + (n / 64) % 64, 0x80 + n % 64]
  else
    [0xF0 + n / 262144, 0x80 + (n / 4096) % 64, 0x80 + (n / 64) % 64,
     0x80 + n % 64]

/-- UTF-8 byte sequence of a string. -/
def strBytes (s : Str) : List Nat := (s.map charBytes).flatten

/-- Byte length of a string (Rust `str::len`). -/
def bLen (s : Str) : Nat := (strBytes s).length

/-- Model of Rust `char`/`str::to_uppercase` (the Unicode full uppercase
mapping): exact on ASCII (`a`-`z` map to `A`-`Z`, other ASCII unchanged);
includes the full mapping of the character U+FB00 (the `ff` ligature,
whose uppercase is the two-character string `FF`, shrinking its UTF-8
encoding from three bytes to two); identity on all other characters.
The characters analysed in this development are covered exactly by
these cases. -/
def rustUpperChar (c : Char) : Str :=
  if c.toNat = 0xFB00 then ['F', 'F'] else [c.toUpper]

/-- Model of Rust `str::to_uppercase`, mapping each character through
`rustUpperChar` (Rust's `to_uppercase` is the per-character full
uppercase mapping, concatenated). -/
def rustUpperStr (s : Str) : Str := (s.map rustUpperChar).flatten

/-- The UTF-8 bytes of `line.to_uppercase()`, the haystack every
`upper.find(..)` call in `find_level` searches. -/
def upperBytes (line : Str) : List Nat := strBytes (rustUpperStr line)

/-- Boolean test that `pat` is an initial segment of `hay`. -/
def leadsWith : List Nat → List Nat → Bool
  | [], _ => true
  | _ :: _, [] => false
  | a :: l, b :: m => a == b && leadsWith l m

/-- Byte-level substring search: index of the first occurrence of `pat`
in `hay`, as Rust `str::find` returns it.  (All patterns searched by the
tool are ASCII, so on a valid UTF-8 haystack every byte-level occurrence
starts on a character boundary, exactly as `str::find` reports.) -/
def bytesFind (pat : List Nat) : List Nat → Option Nat
  | [] => if leadsWith pat [] then some 0 else none
  | b :: t =>
    if leadsWith pat (b :: t) then some 0
    else (bytesFind pat t).map (· + 1)

/-- Take the first `n` bytes of a string as a string: `some` prefix when
`n` is a character boundary not past the end, `none` (a Rust slice
panic) otherwise. -/
def takeBytes : Str → Nat → Option Str
  | _, 0 => some []
  | [], _ + 1 => none
  | c :: cs, n + 1 =>
    if (charBytes c).length ≤ n + 1 then
      match takeBytes cs (n + 1 - (charBytes c).length) with
      | some r => some (c :: r)
      | none => none
    else none

/-- Drop the first `n` bytes of a string: `some` suffix when `n` is a
character boundary not past the end, `none` (a Rust slice panic)
otherwise. -/
def dropBytes : Str → Nat → Option Str
  | s, 0 => some s
  | [], _ + 1 => none
  | c :: cs, n + 1 =>
    if (charBytes c).length ≤ n + 1 then
      dropBytes cs (n + 1 - (charBytes c).length)
    else none

/-- Rust `&s[a..b]`: the substring spanning byte offsets `a` to `b`,
`none` where Rust would panic. -/
def sliceBytes (s : Str) (a b : Nat) : Option Str :=
  if a ≤ b then
    match dropBytes s a with
    | some r => takeBytes r (b - a)
    | none => none
  else none

/-- Outcome of `find_level`: a match (byte start offset in the original
line plus the matched text), no match, or a panic of the process from
slicing the original line at an offset that is out of range or not a
character boundary there. -/
inductive FindRes where
  | panicked : FindRes
  | noMatch : FindRes
  | found : Nat → Str → FindRes
deriving DecidableEq, Repr

/-- One search step of `find_level`, described by a triple
`(pat, off, len)`: search the uppercased line for the byte pattern of
`pat`; on a hit at byte `q`, slice the ORIGINAL line at byte range
`[q + off, q + off + len)` (the source's
`Some((pos, &line[pos .. pos + len]))`, with `pos = q + off`). Returns
`none` when the pattern does not occur (the loop falls through to the
next pattern). -/
def attempt (line : Str) (p : Str × Nat × Nat) : Option FindRes :=
  match bytesFind (strBytes p.1) (upperBytes line) with
  | some q =>
    some (match sliceBytes line (q + p.2.1) (q + p.2.1 + p.2.2) with
      | some tok => FindRes.found (q + p.2.1) tok
      | none => FindRes.panicked)
  | none => none

/-- The token list of `find_level`, in its fixed priority order. -/
def tokens : List Str :=
  [S "ERROR", S "ERR", S "WARNING", S "WARN", S "INFO", S "DEBUG",
   S "TRACE"]

/-- Pass 1 of `find_level`: for each token `t` in order, `"[t]"` then
`"(t)"`, span the whole bracketed pattern (`bracket1.len() = t.len() + 2`
bytes from the hit). -/
def pass1Pats : List (Str × Nat × Nat) :=
  (tokens.map (fun t =>
    [(('[' :: t) ++ [']'], 0, bLen t + 2),
     (('(' :: t) ++ [')'], 0, bLen t + 2)])).flatten

/-- Pass 2 of `find_level`: for each token `t` in order, `"t:"` (span
`t.len() + 1`), then `"t -"` (span `t.len() + 2`), then `" t"` (hit at
the space, span starts one byte later and covers `t.len()` bytes). -/
def pass2Pats : List (Str × Nat × Nat) :=
  (tokens.map (fun t =>
    [(t ++ [':'], 0, bLen t + 1),
     (t ++ [' ', '-'], 0, bLen t + 2),
     (' ' :: t, 1, bLen t)])).flatten

/-- Pass 3 of `find_level`: each bare token anywhere in the line. -/
def pass3Pats : List (Str × Nat × Nat) :=
  tokens.map (fun t => (t, 0, bLen t))

/-- All search steps of `find_level`, in source order. -/
def allPats : List (Str × Nat × Nat) := pass1Pats ++ pass2Pats ++ pass3Pats

/-- First `some` produced by `f` along the list (the early `return` of
the source's search loops). -/
def firstSome (f : α → Option β) : List α → Option β
  | [] => none
  | a :: l =>
    match f a with
    | some b => some b
    | none => firstSome f l

/-- The token locator `find_level`. -/
def find_level (line : Str) : FindRes :=
  match firstSome (attempt line) allPats with
  | some r => r
  | none => FindRes.noMatch

/-- ANSI escape constant RED. -/
def RED : Str := S "\x1b[31m"

/-- ANSI escape constant YELLOW. -/
def YELLOW : Str := S "\x1b[33m"

/-- ANSI escape constant GREEN. -/
def GREEN : Str := S "\x1b[32m"

/-- ANSI escape constant BLUE. -/
def BLUE : Str := S "\x1b[34m"

/-- ANSI escape constant MAGENTA. -/
def MAGENTA : Str := S "\x1b[35m"

/-- ANSI escape constant CYAN. -/
def CYAN : Str := S "\x1b[36m"

/-- ANSI escape constant RESET. -/
def RESET : Str := S "\x1b[0m"

/-- ANSI escape constant BOLD. -/
def BOLD : Str := S "\x1b[1m"

/-- The color table `color_for_level`. -/
def color_for_level (level : Str) : Str :=
  if level = S "ERROR" ∨ level = S "ERR" then RED
  else if level = S "WARN" ∨ level = S "WARNING" then YELLOW
  else if level = S "INFO" then GREEN
  else if level = S "DEBUG" then CYAN
  else if level = S "TRACE" then MAGENTA
  else RESET

/-- Model of Rust `char::is_whitespace` restricted to the ASCII part of
the Unicode White_Space property (tab, line feed, vertical tab, form
feed, carriage return, space); the non-ASCII white-space characters,
which never occur in the strings analysed here, are omitted. -/
def rustIsWhitespace (c : Char) : Bool :=
  c = ' ' || c = '\t' || c = '\n' || c = Char.ofNat 0x0B ||
    c = Char.ofNat 0x0C || c = '\r'

/-- The trimming predicate of `print_colored_line`: brackets,
parentheses, colon, hyphen or whitespace. -/
def isTrimChar (c : Char) : Bool :=
  c = '[' || c = ']' || c = '(' || c = ')' || c = ':' || c = '-' ||
    rustIsWhitespace c

/-- Rust `str::trim_matches` with a character predicate: remove every
matching character from both ends. -/
def trimMatches (p : Char → Bool) (s : Str) : Str :=
  ((s.dropWhile p).reverse.dropWhile p).reverse

/-- The normalisation `token.trim_matches(..).to_uppercase()` applied to
a matched span before the color lookup. -/
def normalizeToken (tok : Str) : Str :=
  rustUpperStr (trimMatches isTrimChar tok)

/-- The per-line printer `print_colored_line`, as the text it emits:
prefix, BOLD, color, matched span, RESET, suffix, newline on a match;
the line plus a newline otherwise; `none` models the panic that aborts
the process when `find_level` slices off a character boundary. -/
def print_colored_line (line : Str) : Option Str :=
  match find_level line with
  | FindRes.panicked => none
  | FindRes.noMatch => some (line ++ ['\n'])
  | FindRes.found pos tok =>
    match takeBytes line pos, sliceBytes line pos (pos + bLen tok),
        dropBytes line (pos + bLen tok) with
    | some pre, some mid, some suf =>
      some (pre ++ BOLD ++ color_for_level (normalizeToken tok) ++ mid ++
        RESET ++ suf ++ ['\n'])
    | _, _, _ => none

/-- The loop of `process_reader` over the stream's line-read outcomes.
Each element of `input` is one `maybe_line` the `BufReader` yields (a
line, or a read error).  Each `Ok` line goes through
`print_colored_line`: a `none` there is the locator panicking inside the
loop, which aborts the whole process — modelled by an outer `none`;
otherwise the emission of the computed text may hit a write error,
modelled by the oracle `wfail i` for the `i`-th printed line (the
model's writer is not a real file descriptor), which the source reports
and `break`s on.  A read error is reported and `break`s.  Every
non-aborting path returns `Ok(())`. -/
def process_reader (wfail : Nat → Bool) :
    List (Except String Str) → Nat → Option (Except String Unit)
  | [], _ => some (Except.ok ())
  | Except.ok l :: rest, i =>
    match print_colored_line l with
    | none => none
    | some _ =>
      if wfail i then some (Except.ok ())
      else process_reader wfail rest (i + 1)
  | Except.error _ :: _, _ => some (Except.ok ())

/-- Exit code `main` derives from a `process_reader` result: `exit(1)`
on `Err`, fall through to exit 0 on `Ok`. -/
def exitOfResult : Except String Unit → Nat
  | Except.ok _ => 0
  | Except.error _ => 1

/-- Exit code of the whole process after the stream-processing path: a
panic inside the loop aborts the process with the Rust panic exit code
101 (never reaching `main`'s check); otherwise `main` inspects the
`io::Result`. -/
def streamExit (wfail : Nat → Bool)
    (input : List (Except String Str)) : Nat :=
  match process_reader wfail input 0 with
  | none => 101
  | some r => exitOfResult r

/-- The exit code of `main`, over the command-line arguments after the
program name (`args[1..]`), an oracle telling whether `File::open`
fails, the write oracle and the stream contents.  More than one
argument: usage plus `exit(1)`.  No argument or `"-"`: process stdin.
One path argument: `exit(1)` when the open fails, else process the
file. -/
def mainExit (argTail : List Str) (openFails : Bool) (wfail : Nat → Bool)
    (input : List (Except String Str)) : Nat :=
  match argTail with
  | [] => streamExit wfail input
  | [a] =>
    if a = S "-" then streamExit wfail input
    else if openFails then 1
    else streamExit wfail input
  | _ => 1

/-! ### Basic properties of the byte-level operations -/

theorem strBytes_cons (c : Char) (s : Str) :
    strBytes (c :: s) = charBytes c ++ strBytes s := by
  simp [strBytes]

theorem bLen_cons (c : Char) (s : Str) :
    bLen (c :: s) = (charBytes c).length + bLen s := by
  simp [bLen, strBytes_cons]

theorem leadsWith_iff (p h : List Nat) : leadsWith p h = true ↔ p <+: h := by
  induction p generalizing h with
  | nil => simp [leadsWith]
  | cons a l ih =>
    cases h with
    | nil => simp [leadsWith]
    | cons b m => simp [leadsWith, List.cons_prefix_cons, ih]

theorem bytesFind_eq_some {pat hay : List Nat} {i : Nat}
    (h : bytesFind pat hay = some i) :
    pat <+: hay.drop i ∧ i + pat.length ≤ hay.length := by
  induction hay generalizing i with
  | nil =>
    unfold bytesFind at h
    split at h
    · rename_i hl
      cases h
      have hp : pat <+: ([] : List Nat) := (leadsWith_iff _ _).mp hl
      simpa using hp
    · cases h
  | cons b t ih =>
    unfold bytesFind at h
    split at h
    · rename_i hl
      cases h
      have hp := (leadsWith_iff _ _).mp hl
      exact ⟨hp, by simpa using hp.length_le⟩
    · rcases Option.map_eq_some'.mp h with ⟨j, hj, rfl⟩
      rcases ih hj with ⟨h1, h2⟩
      exact ⟨h1, by simp only [List.length_cons]; omega⟩

theorem bytesFind_eq_none {pat hay : List Nat} :
    bytesFind pat hay = none ↔ ¬ pat <:+: hay := by
  induction hay with
  | nil =>
    unfold bytesFind
    split
    · rename_i hl
      have hp : pat = [] := by simpa using (leadsWith_iff _ _).mp hl
      subst hp
      simp
    · rename_i hl
      have hp : ¬ pat <+: ([] : List Nat) := fun hc => hl ((leadsWith_iff _ _).mpr hc)
      simp only [List.prefix_nil] at hp
      simp [List.infix_nil, hp]
  | cons b t ih =>
    unfold bytesFind
    split
    · rename_i hl
      have hp := (leadsWith_iff _ _).mp hl
      simp [hp.isInfix]
    · rename_i hl
      have hp : ¬ pat <+: b :: t := fun hc => hl ((leadsWith_iff _ _).mpr hc)
      simp [List.infix_cons_iff, hp, ih]

theorem firstSome_append (f : α → Option β) (l1 l2 : List α) :
    firstSome f (l1 ++ l2) =
      match firstSome f l1 with
      | some b => some b
      | none => firstSome f l2 := by
  induction l1 with
  | nil => simp [firstSome]
  | cons a l ih =>
    cases h : f a <;> simp [firstSome, h, ih]

theorem firstSome_eq_some {f : α → Option β} {l : List α} {b : β}
    (h : firstSome f l = some b) : ∃ a ∈ l, f a = some b := by
  induction l with
  | nil => cases h
  | cons a l ih =>
    unfold firstSome at h
    cases ha : f a with
    | some c =>
      rw [ha] at h
      cases h
      exact ⟨a, List.mem_cons_self .., ha⟩
    | none =>
      rw [ha] at h
      rcases ih h with ⟨x, hx, hfx⟩
      exact ⟨x, List.mem_cons_of_mem _ hx, hfx⟩

theorem firstSome_eq_none {f : α → Option β} {l : List α}
    (h : ∀ a ∈ l, f a = none) : firstSome f l = none := by
  induction l with
  | nil => rfl
  | cons a l ih =>
    unfold firstSome
    rw [h a (List.mem_cons_self ..)]
    exact ih (fun x hx => h x (List.mem_cons_of_mem _ hx))

theorem firstSome_isSome {f : α → Option β} {l : List α} {a : α}
    (ha : a ∈ l) (hb : (f a).isSome) : ∃ c, firstSome f l = some c := by
  induction l with
  | nil => cases ha
  | cons x l ih =>
    unfold firstSome
    cases hx : f x with
    | some c => exact ⟨c, rfl⟩
    | none =>
      rcases List.mem_cons.mp ha with rfl | hmem
      · rw [hx] at hb; cases hb
      · exact ih hmem

theorem takeBytes_eq_some {s : Str} {n : Nat} {t : Str}
    (h : takeBytes s n = some t) :
    ∃ r, dropBytes s n = some r ∧ t ++ r = s ∧ bLen t = n := by
  induction s generalizing n t with
  | nil =>
    cases n with
    | zero => cases h; exact ⟨[], rfl, rfl, rfl⟩
    | succ m => cases h
  | cons c cs ih =>
    cases n with
    | zero => cases h; exact ⟨c :: cs, rfl, rfl, rfl⟩
    | succ m =>
      unfold takeBytes at h
      split at h
      · rename_i hle
        cases ht : takeBytes cs (m + 1 - (charBytes c).length) with
        | none => rw [ht] at h; cases h
        | some t' =>
          rw [ht] at h
          cases h
          rcases ih ht with ⟨r, hr, hcat, hlen⟩
          refine ⟨r, ?_, by simp [hcat], ?_⟩
          · unfold dropBytes
            rw [if_pos hle]
            exact hr
          · rw [bLen_cons, hlen]
            omega
      · cases h

theorem dropBytes_eq_some {s : Str} {n : Nat} {r : Str}
    (h : dropBytes s n = some r) :
    ∃ t, takeBytes s n = some t ∧ t ++ r = s ∧ bLen t = n := by
  induction s generalizing n r with
  | nil =>
    cases n with
    | zero => cases h; exact ⟨[], rfl, rfl, rfl⟩
    | succ m => cases h
  | cons c cs ih =>
    cases n with
    | zero => cases h; exact ⟨[], rfl, rfl, rfl⟩
    | succ m =>
      unfold dropBytes at h
      split at h
      · rename_i hle
        rcases ih h with ⟨t', ht, hcat, hlen⟩
        refine ⟨c :: t', ?_, by simp [hcat], ?_⟩
        · unfold takeBytes
          rw [if_pos hle, ht]
        · rw [bLen_cons, hlen]
          omega
      · cases h

theorem dropBytes_zero (s : Str) : dropBytes s 0 = some s := by
  cases s <;> rfl

theorem dropBytes_nil_succ (n : Nat) : dropBytes [] (n + 1) = none := rfl

theorem dropBytes_cons_succ (c : Char) (cs : Str) (n : Nat) :
    dropBytes (c :: cs) (n + 1) =
      if (charBytes c).length ≤ n + 1 then
        dropBytes cs (n + 1 - (charBytes c).length)
      else none := rfl

theorem dropBytes_add {s r : Str} {a : Nat}
    (h : dropBytes s a = some r) (m : Nat) :
    dropBytes s (a + m) = dropBytes r m := by
  induction s generalizing a with
  | nil =>
    cases a with
    | zero => rw [dropBytes_zero] at h; cases h; rw [Nat.zero_add]
    | succ k => rw [dropBytes_nil_succ] at h; cases h
  | cons c cs ih =>
    cases a with
    | zero => rw [dropBytes_zero] at h; cases h; rw [Nat.zero_add]
    | succ k =>
      rw [dropBytes_cons_succ] at h
      split at h
      · rename_i hle
        rw [show k + 1 + m = (k + m) + 1 from by omega, dropBytes_cons_succ,
          if_pos (by omega : (charBytes c).length ≤ k + m + 1),
          show k + m + 1 - (charBytes c).length =
            (k + 1 - (charBytes c).length) + m from by omega]
        exact ih h
      · cases h

theorem sliceBytes_eq_some {s : Str} {a b : Nat} {tok : Str}
    (h : sliceBytes s a b = some tok) :
    ∃ pre suf, takeBytes s a = some pre ∧ dropBytes s b = some suf ∧
      pre ++ (tok ++ suf) = s ∧ bLen pre = a ∧ bLen tok = b - a ∧ a ≤ b := by
  unfold sliceBytes at h
  split at h
  · rename_i hab
    cases hd : dropBytes s a with
    | none => rw [hd] at h; cases h
    | some r =>
      rw [hd] at h
      rcases dropBytes_eq_some hd with ⟨pre, hpre, hcat, hlen⟩
      rcases takeBytes_eq_some h with ⟨suf, hsuf, hcat2, hlen2⟩
      refine ⟨pre, suf, hpre, ?_, by rw [hcat2, hcat], hlen, hlen2, hab⟩
      rw [show b = a + (b - a) from by omega, dropBytes_add hd]
      exact hsuf
  · cases h

/-! ### ASCII reasoning -/

theorem ascii_char_cases {P : Char → Prop}
    (h : ∀ n, n < 128 → P (Char.ofNat n)) {c : Char} (hc : c.toNat < 128) :
    P c := by
  have h2 := h c.toNat hc
  rwa [Char.ofNat_toNat] at h2

theorem char_toNat_injective : Function.Injective Char.toNat := by
  intro a b hab
  have ha := Char.ofNat_toNat a
  have hb := Char.ofNat_toNat b
  rw [← ha, ← hb, hab]

theorem charBytes_ascii {c : Char} (h : c.toNat < 128) :
    charBytes c = [c.toNat] := by
  simp [charBytes, h]

theorem toUpper_toNat_lt {c : Char} (h : c.toNat < 128) :
    (Char.toUpper c).toNat < 128 :=
  ascii_char_cases (P := fun c => (Char.toUpper c).toNat < 128) (by decide) h

theorem toUpper_eq_self_of_not_lower {c : Char}
    (h : ¬(97 ≤ c.toNat ∧ c.toNat ≤ 122)) : Char.toUpper c = c := by
  simp only [Char.toUpper]
  exact if_neg h

theorem rustUpperChar_ascii {c : Char} (h : c.toNat < 128) :
    rustUpperChar c = [c.toUpper] := by
  unfold rustUpperChar
  rw [if_neg (by omega : ¬ c.toNat = 0xFB00)]

theorem strBytes_ascii {s : Str} (h : ∀ c ∈ s, c.toNat < 128) :
    strBytes s = s.map Char.toNat := by
  induction s with
  | nil => rfl
  | cons c cs ih =>
    rw [strBytes_cons, charBytes_ascii (h c (List.mem_cons_self ..)),
      ih (fun x hx => h x (List.mem_cons_of_mem _ hx))]
    rfl

theorem bLen_ascii {s : Str} (h : ∀ c ∈ s, c.toNat < 128) :
    bLen s = s.length := by
  rw [bLen, strBytes_ascii h, List.length_map]

theorem rustUpperStr_ascii {s : Str} (h : ∀ c ∈ s, c.toNat < 128) :
    rustUpperStr s = s.map Char.toUpper := by
  induction s with
  | nil => rfl
  | cons c cs ih =>
    have ih2 := ih (fun x hx => h x (List.mem_cons_of_mem _ hx))
    simp only [rustUpperStr, List.map_cons, List.flatten_cons] at ih2 ⊢
    rw [rustUpperChar_ascii (h c (List.mem_cons_self ..)), ih2]
    rfl

theorem upperBytes_ascii {s : Str} (h : ∀ c ∈ s, c.toNat < 128) :
    upperBytes s = s.map (fun c => (Char.toUpper c).toNat) := by
  unfold upperBytes
  rw [rustUpperStr_ascii h, strBytes_ascii ?_, List.map_map]
  · rfl
  · intro b hb
    rcases List.mem_map.mp hb with ⟨x, hx, rfl⟩
    exact toUpper_toNat_lt (h x hx)

theorem length_upperBytes_ascii {s : Str} (h : ∀ c ∈ s, c.toNat < 128) :
    (upperBytes s).length = s.length := by
  rw [upperBytes_ascii h, List.length_map]

theorem takeBytes_cons_succ (c : Char) (cs : Str) (n : Nat) :
    takeBytes (c :: cs) (n + 1) =
      if (charBytes c).length ≤ n + 1 then
        match takeBytes cs (n + 1 - (charBytes c).length) with
        | some r => some (c :: r)
        | none => none
      else none := rfl

theorem takeBytes_ascii {s : Str} (h : ∀ c ∈ s, c.toNat < 128) :
    ∀ n, n ≤ s.length → takeBytes s n = some (s.take n) := by
  induction s with
  | nil =>
    intro n hn
    have hz : n = 0 := by simpa using hn
    subst hz
    rfl
  | cons c cs ih =>
    intro n hn
    cases n with
    | zero => rfl
    | succ m =>
      have hc := h c (List.mem_cons_self ..)
      have hlen : (charBytes c).length = 1 := by rw [charBytes_ascii hc]; rfl
      rw [takeBytes_cons_succ, if_pos (by omega), hlen,
        show m + 1 - 1 = m from by omega,
        ih (fun x hx => h x (List.mem_cons_of_mem _ hx)) m
          (by simp only [List.length_cons] at hn; omega)]
      rfl

theorem dropBytes_ascii {s : Str} (h : ∀ c ∈ s, c.toNat < 128) :
    ∀ n, n ≤ s.length → dropBytes s n = some (s.drop n) := by
  induction s with
  | nil =>
    intro n hn
    have hz : n = 0 := by simpa using hn
    subst hz
    rfl
  | cons c cs ih =>
    intro n hn
    cases n with
    | zero => rfl
    | succ m =>
      have hc := h c (List.mem_cons_self ..)
      have hlen : (charBytes c).length = 1 := by rw [charBytes_ascii hc]; rfl
      rw [dropBytes_cons_succ, if_pos (by omega), hlen,
        show m + 1 - 1 = m from by omega]
      exact ih (fun x hx => h x (List.mem_cons_of_mem _ hx)) m
        (by simp only [List.length_cons] at hn; omega)

theorem sliceBytes_ascii {s : Str} (h : ∀ c ∈ s, c.toNat < 128) {a b : Nat}
    (hab : a ≤ b) (hb : b ≤ s.length) :
    sliceBytes s a b = some ((s.drop a).take (b - a)) := by
  unfold sliceBytes
  rw [if_pos hab, dropBytes_ascii h a (le_trans hab hb)]
  exact takeBytes_ascii (fun x hx => h x (List.drop_subset _ _ hx)) (b - a)
    (by simp only [List.length_drop]; omega)

theorem isTrimChar_toUpper (c : Char) :
    isTrimChar (Char.toUpper c) = isTrimChar c := by
  by_cases hc : c.toNat < 128
  · exact ascii_char_cases
      (P := fun c => isTrimChar (Char.toUpper c) = isTrimChar c)
      (by decide) hc
  · rw [toUpper_eq_self_of_not_lower (by omega)]

theorem trimMatches_map_toUpper (s : Str) :
    trimMatches isTrimChar (s.map Char.toUpper) =
      (trimMatches isTrimChar s).map Char.toUpper := by
  have hfun : isTrimChar ∘ Char.toUpper = isTrimChar := funext isTrimChar_toUpper
  unfold trimMatches
  rw [List.dropWhile_map, hfun, ← List.map_reverse, List.dropWhile_map, hfun,
    ← List.map_reverse]

theorem mem_of_mem_trimMatches {p : Char → Bool} {s : Str} {c : Char}
    (h : c ∈ trimMatches p s) : c ∈ s := by
  unfold trimMatches at h
  rw [List.mem_reverse] at h
  have h1 := (List.dropWhile_sublist _).subset h
  rw [List.mem_reverse] at h1
  exact (List.dropWhile_sublist _).subset h1

/-! ### Eliminating a successful search -/

theorem attempt_eq_of_find_none {line : Str} {p : Str × Nat × Nat}
    (hb : bytesFind (strBytes p.1) (upperBytes line) = none) :
    attempt line p = none := by
  unfold attempt
  rw [hb]

theorem attempt_eq_of_find {line : Str} {p : Str × Nat × Nat} {q : Nat}
    (hb : bytesFind (strBytes p.1) (upperBytes line) = some q) :
    attempt line p =
      some (match sliceBytes line (q + p.2.1) (q + p.2.1 + p.2.2) with
        | some tok => FindRes.found (q + p.2.1) tok
        | none => FindRes.panicked) := by
  unfold attempt
  rw [hb]

theorem attempt_eq_some_found {line : Str} {p : Str × Nat × Nat} {pos : Nat}
    {tok : Str} (h : attempt line p = some (FindRes.found pos tok)) :
    ∃ q, bytesFind (strBytes p.1) (upperBytes line) = some q ∧
      pos = q + p.2.1 ∧
      sliceBytes line (q + p.2.1) (q + p.2.1 + p.2.2) = some tok := by
  cases hb : bytesFind (strBytes p.1) (upperBytes line) with
  | none => rw [attempt_eq_of_find_none hb] at h; cases h
  | some q =>
    rw [attempt_eq_of_find hb] at h
    have h2 := Option.some.inj h
    split at h2
    · rename_i tok' hs
      cases h2
      exact ⟨q, rfl, rfl, hs⟩
    · cases h2

theorem find_level_eq_found {line : Str} {pos : Nat} {tok : Str}
    (h : find_level line = FindRes.found pos tok) :
    ∃ p ∈ allPats, ∃ q, bytesFind (strBytes p.1) (upperBytes line) = some q ∧
      pos = q + p.2.1 ∧ sliceBytes line pos (pos + p.2.2) = some tok := by
  unfold find_level at h
  cases hf : firstSome (attempt line) allPats with
  | none => rw [hf] at h; cases h
  | some r =>
    rw [hf] at h
    subst h
    rcases firstSome_eq_some hf with ⟨p, hp, hatt⟩
    rcases attempt_eq_some_found hatt with ⟨q, hb, hpos, hs⟩
    exact ⟨p, hp, q, hb, hpos, by rw [hpos]; exact hs⟩

theorem find_level_found_print {line : Str} {pos : Nat} {tok : Str}
    (h : find_level line = FindRes.found pos tok) :
    ∃ pre suf, takeBytes line pos = some pre ∧
      sliceBytes line pos (pos + bLen tok) = some tok ∧
      dropBytes line (pos + bLen tok) = some suf ∧
      pre ++ tok ++ suf = line ∧
      print_colored_line line = some (pre ++ BOLD ++
        color_for_level (normalizeToken tok) ++ tok ++ RESET ++ suf ++
        ['\n']) := by
  rcases find_level_eq_found h with ⟨p, hp, q, hb, hpos, hs⟩
  rcases sliceBytes_eq_some hs with
    ⟨pre, suf, hpre, hsuf, hcat, hlenpre, hlentok, hab⟩
  have hL : bLen tok = p.2.2 := by rw [hlentok]; omega
  have hs2 : sliceBytes line pos (pos + bLen tok) = some tok := by
    rw [hL]; exact hs
  have hsuf2 : dropBytes line (pos + bLen tok) = some suf := by
    rw [hL]; exact hsuf
  refine ⟨pre, suf, hpre, hs2, hsuf2,
    by simpa [List.append_assoc] using hcat, ?_⟩
  unfold print_colored_line
  rw [h]
  show (match takeBytes line pos, sliceBytes line pos (pos + bLen tok),
      dropBytes line (pos + bLen tok) with
    | some pre, some mid, some suf =>
      some (pre ++ BOLD ++ color_for_level (normalizeToken tok) ++ mid ++
        RESET ++ suf ++ ['\n'])
    | _, _, _ => none) = _
  rw [hpre, hs2, hsuf2]

/-! ### Facts about the concrete pattern table -/

theorem pats_wf : ∀ p ∈ allPats, p.2.1 + p.2.2 ≤ (strBytes p.1).length := by
  decide

theorem pats_ascii : ∀ p ∈ allPats, ∀ c ∈ p.1, c.toNat < 128 := by
  decide

theorem pats_norm : ∀ p ∈ allPats,
    trimMatches isTrimChar ((p.1.drop p.2.1).take p.2.2) ∈ tokens ∧
    color_for_level (trimMatches isTrimChar ((p.1.drop p.2.1).take p.2.2)) ≠
      RESET := by
  decide

theorem tokens_ascii : ∀ t ∈ tokens, ∀ c ∈ t, c.toNat < 128 := by
  decide

theorem pats_token :
    ∀ p ∈ allPats, ∃ t ∈ tokens, strBytes t <:+: strBytes p.1 := by
  decide

/-! ### What a successful search step yields on an ASCII line -/

theorem attempt_found_chars {line : Str} {p : Str × Nat × Nat} {pos : Nat}
    {tok : Str} (hA : ∀ c ∈ line, c.toNat < 128)
    (hp : ∀ c ∈ p.1, c.toNat < 128)
    (hwf : p.2.1 + p.2.2 ≤ (strBytes p.1).length)
    (h : attempt line p = some (FindRes.found pos tok)) :
    pos + p.2.2 ≤ line.length ∧ tok = (line.drop pos).take p.2.2 ∧
      tok.map Char.toUpper = (p.1.drop p.2.1).take p.2.2 := by
  rcases attempt_eq_some_found h with ⟨q, hb, hpos, hs⟩
  rcases bytesFind_eq_some hb with ⟨hpre, hle⟩
  rw [length_upperBytes_ascii hA] at hle
  have hposle : pos + p.2.2 ≤ line.length := by omega
  have hslice2 := sliceBytes_ascii hA
    (a := q + p.2.1) (b := q + p.2.1 + p.2.2) (by omega) (by omega)
  rw [show q + p.2.1 + p.2.2 - (q + p.2.1) = p.2.2 from by omega] at hslice2
  rw [hslice2] at hs
  have htok : tok = (line.drop pos).take p.2.2 := by
    rw [hpos]
    exact (Option.some.inj hs).symm
  have hpat : strBytes p.1 = p.1.map Char.toNat := strBytes_ascii hp
  rw [upperBytes_ascii hA, hpat, ← List.map_drop] at hpre
  have hmm : (line.drop q).map (fun c => (Char.toUpper c).toNat) =
      ((line.drop q).map Char.toUpper).map Char.toNat := by
    rw [List.map_map]
    rfl
  rw [hmm, List.prefix_iff_eq_take, List.length_map, ← List.map_take] at hpre
  have hP : p.1 = ((line.drop q).map Char.toUpper).take p.1.length :=
    List.map_injective_iff.mpr char_toNat_injective hpre
  have hplen : p.2.1 + p.2.2 ≤ p.1.length := by
    rw [hpat, List.length_map] at hwf
    exact hwf
  refine ⟨hposle, htok, ?_⟩
  rw [htok, hpos]
  conv_rhs => rw [hP]
  rw [List.drop_take, List.take_take, inf_eq_left.mpr (by omega),
    List.map_take, ← List.map_drop, List.drop_drop]

theorem attempt_no_panic {line : Str} {p : Str × Nat × Nat}
    (hA : ∀ c ∈ line, c.toNat < 128)
    (hwf : p.2.1 + p.2.2 ≤ (strBytes p.1).length) :
    attempt line p ≠ some FindRes.panicked := by
  intro h
  cases hb : bytesFind (strBytes p.1) (upperBytes line) with
  | none => rw [attempt_eq_of_find_none hb] at h; cases h
  | some q =>
    rw [attempt_eq_of_find hb] at h
    have h2 := Option.some.inj h
    split at h2
    · cases h2
    · rename_i hs
      rcases bytesFind_eq_some hb with ⟨_, hle⟩
      rw [length_upperBytes_ascii hA] at hle
      rw [sliceBytes_ascii hA (by omega) (by omega)] at hs
      cases hs

/-! ### Unfolding equations of the stream loop -/

theorem process_reader_nil (w : Nat → Bool) (i : Nat) :
    process_reader w [] i = some (Except.ok ()) := rfl

theorem process_reader_cons_err (w : Nat → Bool) (msg : String)
    (rest : List (Except String Str)) (i : Nat) :
    process_reader w (Except.error msg :: rest) i =
      some (Except.ok ()) := rfl

theorem process_reader_cons_ok (w : Nat → Bool) (l : Str)
    (rest : List (Except String Str)) (i : Nat) :
    process_reader w (Except.ok l :: rest) i =
      match print_colored_line l with
      | none => none
      | some _ =>
        if w i then some (Except.ok ())
        else process_reader w rest (i + 1) := rfl

/-! ### The claims -/

/-- C1, counterexample: the claim says a read or a write error makes the
process exit non-zero.  It does not: `process_reader` reports the error
and `break`s but returns `Ok(())`, so `main`'s `exit(1)` branch is never
taken.  A stream whose first read fails, and a stream whose first write
fails, both end with `process_reader` returning `Ok` and `main` exiting
0. -/
theorem read_write_error_exit_zero :
    process_reader (fun _ => false) [Except.error "read failure"] 0 =
      some (Except.ok ()) ∧
    mainExit [] false (fun _ => false) [Except.error "read failure"] = 0 ∧
    process_reader (fun _ => true) [Except.ok (S "boom")] 0 =
      some (Except.ok ()) ∧
    mainExit [] false (fun _ => true) [Except.ok (S "boom")] = 0 :=
  ⟨rfl, rfl, rfl, rfl⟩

/-- C1, amended: the processing loop never reports a failure result to
its caller — `process_reader` never returns an `Err`, so read and write
errors end with exit code 0, never `main`'s `exit(1)`.  Precisely: on
every stream whose `Ok` lines do not make the printer panic (which
covers both error streams of the counterexample), `process_reader`
returns `Ok(())` for every write oracle and starting index, and `main`'s
stream-processing paths exit 0 whatever read or write errors occur; the
one non-zero exit of the stream path is the panic abort — shown at the
ligature line, where the process dies with the panic code 101 before
`main`'s check — beside the argument-count and file-open failures. -/
theorem process_reader_always_ok :
    (∀ (w : Nat → Bool) (input : List (Except String Str)) (i : Nat)
      (e : String), process_reader w input i ≠ some (Except.error e)) ∧
    (∀ (w : Nat → Bool) (input : List (Except String Str)) (i : Nat),
      (∀ s : Str, Except.ok s ∈ input → print_colored_line s ≠ none) →
      process_reader w input i = some (Except.ok ())) ∧
    (∀ (w : Nat → Bool) (input : List (Except String Str)) (b : Bool),
      (∀ s : Str, Except.ok s ∈ input → print_colored_line s ≠ none) →
      mainExit [] b w input = 0 ∧ mainExit [S "-"] b w input = 0) ∧
    mainExit [] false (fun _ => false)
      [Except.ok ([Char.ofNat 0xFB00, Char.ofNat 0xFB00] ++ S "ERROR")] =
      101 := by
  have hne : ∀ (w : Nat → Bool) (input : List (Except String Str))
      (i : Nat) (e : String),
      process_reader w input i ≠ some (Except.error e) := by
    intro w input
    induction input with
    | nil =>
      intro i e h
      rw [process_reader_nil] at h
      simp at h
    | cons x rest ih =>
      intro i e h
      cases x with
      | error msg =>
        rw [process_reader_cons_err] at h
        simp at h
      | ok l =>
        rw [process_reader_cons_ok] at h
        split at h
        · simp at h
        · split at h
          · simp at h
          · exact ih (i + 1) e h
  have hok : ∀ (w : Nat → Bool) (input : List (Except String Str))
      (i : Nat), (∀ s : Str, Except.ok s ∈ input →
        print_colored_line s ≠ none) →
      process_reader w input i = some (Except.ok ()) := by
    intro w input
    induction input with
    | nil => intro i _; rfl
    | cons x rest ih =>
      intro i hnp
      cases x with
      | error msg => rfl
      | ok l =>
        rw [process_reader_cons_ok]
        cases hp : print_colored_line l with
        | none =>
          exact absurd hp (hnp l (List.mem_cons_self ..))
        | some out =>
          show (if w i then some (Except.ok ())
            else process_reader w rest (i + 1)) = some (Except.ok ())
          split
          · rfl
          · exact ih (i + 1)
              (fun s hs => hnp s (List.mem_cons_of_mem _ hs))
  refine ⟨hne, hok, ?_, by decide⟩
  intro w input b hnp
  have h0 := hok w input 0 hnp
  constructor
  · show streamExit w input = 0
    unfold streamExit
    rw [h0]
    rfl
  · show (if S "-" = S "-" then streamExit w input
      else if b then 1 else streamExit w input) = 0
    rw [if_pos rfl]
    unfold streamExit
    rw [h0]
    rfl

/-- C1, witness for the amended theorem: a stream holding one harmless
line and then a read error is processed to `Ok(())` with exit 0. -/
theorem process_reader_always_ok_witness :
    process_reader (fun _ => false)
      [Except.ok (S "hello"), Except.error "io"] 0 = some (Except.ok ()) ∧
    mainExit [] false (fun _ => false)
      [Except.ok (S "hello"), Except.error "io"] = 0 := by
  have h := process_reader_always_ok
  have hnp : ∀ s : Str,
      Except.ok s ∈ [Except.ok (S "hello"), Except.error ("io" : String)] →
      print_colored_line s ≠ none := by
    intro s hs
    simp only [List.mem_cons, List.not_mem_nil, or_false] at hs
    rcases hs with hs | hs
    · cases Except.ok.inj hs
      decide
    · exact Except.noConfusion hs
  exact ⟨h.2.1 _ _ 0 hnp, (h.2.2.1 _ _ false hnp).1⟩

/-- C2: whenever the locator returns a match, the text before the start
offset, the matched text, and the text after the match end concatenate
back to the original line exactly. -/
theorem match_span_reconstructs_line (line : Str) (pos : Nat) (tok : Str)
    (h : find_level line = FindRes.found pos tok) :
    ∃ pre suf, takeBytes line pos = some pre ∧
      dropBytes line (pos + bLen tok) = some suf ∧
      pre ++ tok ++ suf = line := by
  rcases find_level_found_print h with ⟨pre, suf, h1, _, h3, h4, _⟩
  exact ⟨pre, suf, h1, h3, h4⟩

/-- C2, witness at the line "2024 [ERROR] boom". -/
theorem match_span_reconstructs_line_witness :
    ∃ pre suf, takeBytes (S "2024 [ERROR] boom") 5 = some pre ∧
      dropBytes (S "2024 [ERROR] boom") (5 + bLen (S "[ERROR]")) = some suf ∧
      pre ++ S "[ERROR]" ++ suf = S "2024 [ERROR] boom" :=
  match_span_reconstructs_line (S "2024 [ERROR] boom") 5 (S "[ERROR]")
    (by decide)

/-- C3, counterexample: the claim says `find_level` never panics.  On
the line made of two U+FB00 ligature characters followed by `ERROR`, the
upper-cased copy is `FFFFERROR` (9 bytes) while the original line is 11
bytes; the bare-token pass finds `ERROR` at byte 4 of the upper-cased
copy, and slicing the original line at byte 4 falls inside the second
ligature's three-byte encoding — a Rust slice panic. -/
theorem find_level_panics_on_ligature_line :
    find_level ([Char.ofNat 0xFB00, Char.ofNat 0xFB00] ++ S "ERROR") =
      FindRes.panicked := by
  decide

/-- C3, amended: on lines of ASCII characters every byte offset the
locator computes from the upper-cased copy is a valid in-range character
boundary of the original line, so `find_level` never panics there; the
panic is reachable only through non-ASCII characters whose uppercase
changes the byte layout. -/
theorem find_level_no_panic_on_ascii (line : Str)
    (hA : ∀ c ∈ line, c.toNat < 128) :
    find_level line ≠ FindRes.panicked := by
  intro hcon
  unfold find_level at hcon
  cases hf : firstSome (attempt line) allPats with
  | none => rw [hf] at hcon; cases hcon
  | some r =>
    rw [hf] at hcon
    subst hcon
    rcases firstSome_eq_some hf with ⟨p, hp, hatt⟩
    exact attempt_no_panic hA (pats_wf p hp) hatt

/-- C3, witness at the ASCII line "hello [error] world". -/
theorem find_level_no_panic_on_ascii_witness :
    find_level (S "hello [error] world") ≠ FindRes.panicked :=
  find_level_no_panic_on_ascii (S "hello [error] world") (by decide)

/-- C5: for a line in which no token occurs at all in the upper-cased
copy (hence no substring matches any token under any supported pattern,
since every pattern contains its token), the emitted output is exactly
the input line followed by one newline — no escape codes. -/
theorem no_token_output_unchanged (line : Str)
    (h : ∀ t ∈ tokens, bytesFind (strBytes t) (upperBytes line) = none) :
    print_colored_line line = some (line ++ ['\n']) := by
  have hall : ∀ p ∈ allPats, attempt line p = none := by
    intro p hp
    cases hb : bytesFind (strBytes p.1) (upperBytes line) with
    | none => exact attempt_eq_of_find_none hb
    | some q =>
      exfalso
      rcases bytesFind_eq_some hb with ⟨hpre, _⟩
      have hinf : strBytes p.1 <:+: upperBytes line :=
        List.infix_iff_prefix_suffix.mpr
          ⟨(upperBytes line).drop q, hpre, List.drop_suffix _ _⟩
      rcases pats_token p hp with ⟨t, ht, htinf⟩
      exact (bytesFind_eq_none.mp (h t ht)) (htinf.trans hinf)
  have hnone : firstSome (attempt line) allPats = none := firstSome_eq_none hall
  unfold print_colored_line find_level
  rw [hnone]

/-- C5, witness at the line "no level here". -/
theorem no_token_output_unchanged_witness :
    print_colored_line (S "no level here") =
      some (S "no level here" ++ ['\n']) :=
  no_token_output_unchanged (S "no level here") (by decide)

/-- C9: the color table maps each canonical severity to its fixed color,
the five canonical colors are pairwise distinct, and the aliases ERR and
WARNING map to the colors of ERROR and WARN. -/
theorem color_table_and_aliases :
    color_for_level (S "ERROR") = RED ∧
    color_for_level (S "WARN") = YELLOW ∧
    color_for_level (S "INFO") = GREEN ∧
    color_for_level (S "DEBUG") = CYAN ∧
    color_for_level (S "TRACE") = MAGENTA ∧
    color_for_level (S "ERR") = color_for_level (S "ERROR") ∧
    color_for_level (S "WARNING") = color_for_level (S "WARN") ∧
    RED ≠ YELLOW ∧ RED ≠ GREEN ∧ RED ≠ CYAN ∧ RED ≠ MAGENTA ∧
    YELLOW ≠ GREEN ∧ YELLOW ≠ CYAN ∧ YELLOW ≠ MAGENTA ∧
    GREEN ≠ CYAN ∧ GREEN ≠ MAGENTA ∧ CYAN ≠ MAGENTA := by
  decide

/-- C4, counterexample: the claim says the RESET default of
`color_for_level` is unreachable from the locator.  On the line made of
the U+FB00 ligature, `a`, and `[ERROR]`, the bracketed pass finds
`[ERROR]` at byte 3 of the upper-cased copy `FFA[ERROR]`, but byte 3 of
the original line is the `a`, so the returned span is `a[ERROR` — its
normalization `A[ERROR` is none of the seven tokens and the color lookup
returns RESET. -/
theorem reset_fallback_reachable_on_unicode :
    find_level ([Char.ofNat 0xFB00, 'a'] ++ S "[ERROR]") =
      FindRes.found 3 (S "a[ERROR") ∧
    color_for_level (normalizeToken (S "a[ERROR")) = RESET := by
  decide

/-- C4, amended: on lines of ASCII characters, every span the locator
returns normalizes (strip brackets, parentheses, colon, hyphen and
whitespace, then upper-case) to one of the seven recognized tokens, and
the color lookup never returns the RESET default; the RESET branch is
reachable only through non-ASCII lines whose uppercase changes the byte
layout. -/
theorem normalized_match_recognized_on_ascii (line : Str) (pos : Nat)
    (tok : Str) (hA : ∀ c ∈ line, c.toNat < 128)
    (h : find_level line = FindRes.found pos tok) :
    normalizeToken tok ∈ tokens ∧
    color_for_level (normalizeToken tok) ≠ RESET := by
  unfold find_level at h
  cases hf : firstSome (attempt line) allPats with
  | none => rw [hf] at h; cases h
  | some r =>
    rw [hf] at h
    subst h
    rcases firstSome_eq_some hf with ⟨p, hp, hatt⟩
    rcases attempt_found_chars hA (pats_ascii p hp) (pats_wf p hp) hatt with
      ⟨hle, htok, hup⟩
    have htokA : ∀ c ∈ tok, c.toNat < 128 := by
      intro c hc
      rw [htok] at hc
      exact hA c (List.drop_subset _ _ (List.take_subset _ _ hc))
    have hnorm : normalizeToken tok =
        trimMatches isTrimChar ((p.1.drop p.2.1).take p.2.2) := by
      unfold normalizeToken
      rw [rustUpperStr_ascii (fun c hc => htokA c (mem_of_mem_trimMatches hc)),
        ← trimMatches_map_toUpper, hup]
    rw [hnorm]
    exact pats_norm p hp

/-- C4, witness at the ASCII line "2024 info: ok", whose match "info:"
normalizes to INFO. -/
theorem normalized_match_recognized_on_ascii_witness :
    normalizeToken (S "info:") ∈ tokens ∧
    color_for_level (normalizeToken (S "info:")) ≠ RESET :=
  normalized_match_recognized_on_ascii (S "2024 info: ok") 5 (S "info:")
    (by decide) (by decide)

/-- C6: if the upper-cased line contains a bracketed form `[TOKEN]` or a
parenthesized form `(TOKEN)` of any token, the locator's result is the
one computed by pass 1 alone — the bracketed/parenthesized search over
all tokens, in order, with the brackets inside the span — before any
delimited or bare pattern is tried; and pass 1's pattern table is
exactly the bracket-then-paren pair per token in priority order. -/
theorem bracketed_pass_precedence (line : Str)
    (h : ∃ t ∈ tokens,
      (bytesFind (strBytes (('[' :: t) ++ [']'])) (upperBytes line)).isSome ∨
      (bytesFind (strBytes (('(' :: t) ++ [')'])) (upperBytes line)).isSome) :
    (∃ r, firstSome (attempt line) pass1Pats = some r ∧
      find_level line = r) ∧
    pass1Pats =
      [(S "[ERROR]", 0, 7), (S "(ERROR)", 0, 7),
       (S "[ERR]", 0, 5), (S "(ERR)", 0, 5),
       (S "[WARNING]", 0, 9), (S "(WARNING)", 0, 9),
       (S "[WARN]", 0, 6), (S "(WARN)", 0, 6),
       (S "[INFO]", 0, 6), (S "(INFO)", 0, 6),
       (S "[DEBUG]", 0, 7), (S "(DEBUG)", 0, 7),
       (S "[TRACE]", 0, 7), (S "(TRACE)", 0, 7)] := by
  refine ⟨?_, by decide⟩
  rcases h with ⟨t, ht, hcase⟩
  have hmem : (('[' :: t) ++ [']'], 0, bLen t + 2) ∈ pass1Pats ∧
      (('(' :: t) ++ [')'], 0, bLen t + 2) ∈ pass1Pats := by
    fin_cases ht <;> exact ⟨by decide, by decide⟩
  have hsome : ∃ c, firstSome (attempt line) pass1Pats = some c := by
    rcases hcase with hb | hb
    · apply firstSome_isSome hmem.1
      rcases Option.isSome_iff_exists.mp hb with ⟨q, hq⟩
      rw [attempt_eq_of_find (p := (('[' :: t) ++ [']'], 0, bLen t + 2)) hq]
      rfl
    · apply firstSome_isSome hmem.2
      rcases Option.isSome_iff_exists.mp hb with ⟨q, hq⟩
      rw [attempt_eq_of_find (p := (('(' :: t) ++ [')'], 0, bLen t + 2)) hq]
      rfl
  rcases hsome with ⟨r, hr⟩
  refine ⟨r, hr, ?_⟩
  unfold find_level
  rw [show allPats = pass1Pats ++ (pass2Pats ++ pass3Pats) from by
      rw [allPats, List.append_assoc],
    firstSome_append, hr]

/-- C6, witness: on "foo [INFO] bar ERROR" the match is "[INFO]" at
byte 4, not the later bare "ERROR". -/
theorem bracketed_pass_precedence_witness :
    find_level (S "foo [INFO] bar ERROR") = FindRes.found 4 (S "[INFO]") := by
  rcases bracketed_pass_precedence (S "foo [INFO] bar ERROR")
      ⟨S "INFO", by decide, Or.inl (by decide)⟩ with ⟨⟨r, h1, h2⟩, _⟩
  have h3 : firstSome (attempt (S "foo [INFO] bar ERROR")) pass1Pats =
      some (FindRes.found 4 (S "[INFO]")) := by decide
  rw [h1] at h3
  rw [h2]
  exact Option.some.inj h3

/-- C7: when pass 1 finds nothing, the locator's result is the first hit
along the pass-2-then-pass-3 pattern list, which tries, per token in
priority order, colon-suffixed, then space-hyphen-suffixed, then
leading-space — so the earliest-listed (token, pattern-kind) combination
wins regardless of position in the line; the pass-2 table is listed
explicitly. -/
theorem token_priority_within_pass (line : Str)
    (h : firstSome (attempt line) pass1Pats = none) :
    find_level line =
      (match firstSome (attempt line) (pass2Pats ++ pass3Pats) with
        | some r => r
        | none => FindRes.noMatch) ∧
    pass2Pats =
      [(S "ERROR:", 0, 6), (S "ERROR -", 0, 7), (S " ERROR", 1, 5),
       (S "ERR:", 0, 4), (S "ERR -", 0, 5), (S " ERR", 1, 3),
       (S "WARNING:", 0, 8), (S "WARNING -", 0, 9), (S " WARNING", 1, 7),
       (S "WARN:", 0, 5), (S "WARN -", 0, 6), (S " WARN", 1, 4),
       (S "INFO:", 0, 5), (S "INFO -", 0, 6), (S " INFO", 1, 4),
       (S "DEBUG:", 0, 6), (S "DEBUG -", 0, 7), (S " DEBUG", 1, 5),
       (S "TRACE:", 0, 6), (S "TRACE -", 0, 7), (S " TRACE", 1, 5)] := by
  constructor
  · unfold find_level
    rw [show allPats = pass1Pats ++ (pass2Pats ++ pass3Pats) from by
        rw [allPats, List.append_assoc],
      firstSome_append, h]
  · decide

/-- C7, witness: "x WARN: then ERR: y" has no bracketed form; the
earlier-listed token ERR wins over the leftmost WARN, so the match is
"ERR:" at byte 13. -/
theorem token_priority_within_pass_witness :
    find_level (S "x WARN: then ERR: y") = FindRes.found 13 (S "ERR:") := by
  have h := token_priority_within_pass (S "x WARN: then ERR: y") (by decide)
  rw [h.1]
  decide

/-- C8: whenever the locator returns a match, the emitted output is the
original prefix, BOLD, the color chosen from the normalized upper-cased
name, the matched span exactly as it appears in the original line
(original casing), RESET, the original suffix, and a newline. -/
theorem match_emitted_with_original_casing (line : Str) (pos : Nat)
    (tok : Str) (h : find_level line = FindRes.found pos tok) :
    ∃ pre suf, takeBytes line pos = some pre ∧
      sliceBytes line pos (pos + bLen tok) = some tok ∧
      dropBytes line (pos + bLen tok) = some suf ∧
      print_colored_line line = some (pre ++ BOLD ++
        color_for_level (normalizeToken tok) ++ tok ++ RESET ++ suf ++
        ['\n']) := by
  rcases find_level_found_print h with ⟨pre, suf, h1, h2, h3, _, h5⟩
  exact ⟨pre, suf, h1, h2, h3, h5⟩

/-- C8, witness: "something warn: retry" emits the lowercase span
"warn:" wrapped in BOLD and the WARN color YELLOW. -/
theorem match_emitted_with_original_casing_witness :
    print_colored_line (S "something warn: retry") =
      some (S "something " ++ BOLD ++ YELLOW ++ S "warn:" ++ RESET ++
        S " retry" ++ ['\n']) := by
  rcases match_emitted_with_original_casing (S "something warn: retry") 10
    (S "warn:") (by decide) with ⟨pre, suf, h1, _, h3, h4⟩
  have hpre : pre = S "something " := by
    have he : takeBytes (S "something warn: retry") 10 =
        some (S "something ") := by decide
    rw [h1] at he
    exact Option.some.inj he
  have hsuf : suf = S " retry" := by
    have he : dropBytes (S "something warn: retry") (10 + bLen (S "warn:")) =
        some (S " retry") := by decide
    rw [h3] at he
    exact Option.some.inj he
  have hcol : color_for_level (normalizeToken (S "warn:")) = YELLOW := by
    decide
  rw [h4, hpre, hsuf, hcol]

/-- C10, counterexample: the claim says a leading-space match is never a
proper substring of a longer word.  On "see ERRORS now" every bracketed
pattern and the two earlier ERROR combinations fail, the leading-space
combination ` ERROR` hits, and the returned span "ERROR" at byte 4 is a
proper substring (a prefix) of the longer word "ERRORS" — the character
right after the span is the letter S. -/
theorem leading_space_matches_longer_word :
    firstSome (attempt (S "see ERRORS now"))
      (pass1Pats ++ [(S "ERROR:", 0, 6), (S "ERROR -", 0, 7)]) = none ∧
    attempt (S "see ERRORS now") (S " ERROR", 1, 5) =
      some (FindRes.found 4 (S "ERROR")) ∧
    find_level (S "see ERRORS now") = FindRes.found 4 (S "ERROR") ∧
    (S "see ERRORS now")[9]? = some 'S' ∧ ('S').isAlpha = true := by
  decide

/-- C10, amended: what the leading-space anchor does guarantee, on ASCII
lines, is that a match produced by the ` TOKEN` combination starts past
byte 0 and is immediately preceded by a space in the original line (so
the token is never matched mid-word or at the end of a longer word), and
the span, excluding the anchor space, upper-cases to the token; it does
not prevent the span being a proper prefix of a longer word. -/
theorem leading_space_anchor_space_before (s t : Str) (pos : Nat)
    (tok : Str) (hA : ∀ c ∈ s, c.toNat < 128) (ht : t ∈ tokens)
    (h : attempt s (' ' :: t, 1, bLen t) = some (FindRes.found pos tok)) :
    1 ≤ pos ∧ s[pos - 1]? = some ' ' ∧ tok.map Char.toUpper = t := by
  have htA : ∀ c ∈ t, c.toNat < 128 := tokens_ascii t ht
  have hpA : ∀ c ∈ (' ' :: t), c.toNat < 128 := by
    intro c hc
    rcases List.mem_cons.mp hc with rfl | hc
    · decide
    · exact htA c hc
  have hwf : (1 : Nat) + bLen t ≤ (strBytes (' ' :: t)).length := by
    rw [strBytes_cons, List.length_append,
      charBytes_ascii (by decide : (' ').toNat < 128)]
    simp [bLen]
  rcases attempt_found_chars (p := (' ' :: t, 1, bLen t)) hA hpA hwf h with
    ⟨hle, htok, hup⟩
  have hbl : bLen t = t.length := bLen_ascii htA
  have hup2 : tok.map Char.toUpper = t := by
    rw [hup]
    simp [hbl]
  rcases attempt_eq_some_found h with ⟨q, hb, hpos, _⟩
  rcases bytesFind_eq_some hb with ⟨hpre, hlen⟩
  have h32 : strBytes (' ' :: t) = 32 :: strBytes t := by
    rw [strBytes_cons, charBytes_ascii (by decide : (' ').toNat < 128)]
    rfl
  rw [h32] at hpre
  rcases hpre with ⟨rest, hrest⟩
  have hdropq : (upperBytes s).drop q = 32 :: (strBytes t ++ rest) := by
    rw [← hrest]
    rfl
  have hq : (upperBytes s)[q]? = some 32 := by
    have e : ((upperBytes s).drop q)[0]? = (upperBytes s)[q]? := by
      rw [List.getElem?_drop, Nat.add_zero]
    rw [← e, hdropq]
    simp
  rw [upperBytes_ascii hA, List.getElem?_map] at hq
  rcases Option.map_eq_some'.mp hq with ⟨c, hc, hfc⟩
  have hcmem : c ∈ s := by
    rcases List.getElem?_eq_some_iff.mp hc with ⟨hlt, hcel⟩
    exact hcel ▸ List.getElem_mem hlt
  have hsp : c = ' ' :=
    ascii_char_cases (P := fun c => (Char.toUpper c).toNat = 32 → c = ' ')
      (by decide) (hA c hcmem) hfc
  have hpos1 : pos = q + 1 := hpos
  refine ⟨by omega, ?_, hup2⟩
  rw [hpos1, show q + 1 - 1 = q from by omega, hc, hsp]

/-- C10, witness at "see ERRORS now" with the token ERROR. -/
theorem leading_space_anchor_space_before_witness :
    1 ≤ 4 ∧ (S "see ERRORS now")[4 - 1]? = some ' ' ∧
      (S "ERROR").map Char.toUpper = S "ERROR" :=
  leading_space_anchor_space_before (S "see ERRORS now") (S "ERROR") 4
    (S "ERROR") (by decide) (by decide) (by decide)

end LogHighlighter
